import Mathlib

/-!
# Shallow embedding of the `enum` Go library

This file embeds the current snapshot of the `enum` package — the
wrapper-based `Enum[T]` handle (`internalEnumWrapper`) together with the
`internalSet` that carries the `exhaustedID` flag — and proves the spec's
claims about it.

Modelling conventions:

* A Go integer type `T` (one of `constraints.Integer`) is modelled by
  `IntType`: a signedness flag and a bit width.  Go's conversion
  `T(x)` from `int64` is the two's-complement truncation `IntType.conv`.
  The `int64` type itself is `i64`, and `wrap64` is conversion into it.
* Go maps keyed by insertion are modelled as association lists kept in
  insertion order (`nameEnumMap : List InternalEnum`, looked up by the
  `name` field; `setByTypeName` as `Directory`, a list of
  `(typeName, set)` pairs).  Iteration order of a Go map is unspecified;
  none of the claims proved here depends on the iteration order of
  `setByTypeName`, and for `nameEnumMap` the insertion-order list is the
  ground truth the spec's "creation order" statements refer to.
* A Go `panic` is modelled as an `Except.error` carrying the panic kind
  (`AddPanic`, `NewPanic`, `UsagePanic`); functions that in Go panic
  before any mutation return the unchanged state alongside the error.
  Recoverable Go `error` returns are modelled by `GoErr`.
* `encoding/json`'s string codec is external library code; a JSON
  document that is a string is modelled by `some payload` (its decoded
  string), and any non-string JSON document by `none`.  Marshalling a
  handle produces the string payload that `json.Marshal(e.Name())`
  encodes, namely the name itself.
-/

deriving instance DecidableEq for Except

/-- A Go integer type: signedness plus bit width (8/16/32/64 for the
`constraints.Integer` types; the lemmas are stated for any width in
`[1, 64]`). -/
structure IntType where
  signed : Bool
  bits : Nat
deriving DecidableEq, Repr

/-- Go conversion of an `int64` value into the integer type `it`:
two's-complement truncation to `it.bits` bits. -/
def IntType.conv (it : IntType) (x : Int) : Int :=
  if it.signed ∧ 2 ^ (it.bits - 1) ≤ x % 2 ^ it.bits then
    x % 2 ^ it.bits - 2 ^ it.bits
  else
    x % 2 ^ it.bits

/-- Go's `int64`. -/
def i64 : IntType := ⟨true, 64⟩

/-- Go `int64` arithmetic wraps around; `wrap64` is the normalisation
applied after every `int64` operation. -/
def wrap64 (x : Int) : Int := i64.conv x

/-- The number of distinct non-negative identifiers representable in
`it`: `2^(bits-1)` for a signed type, `2^bits` for an unsigned one. -/
def IntType.KVal (it : IntType) : Nat :=
  if it.signed then 2 ^ (it.bits - 1) else 2 ^ it.bits

/-- Go `internalEnum` (enum.go): the stored name/ID pair.  The `id` field
holds the mathematical value of the Go `T`-typed ID (already truncated
by `IntType.conv`). -/
structure InternalEnum where
  name : String
  id : Int
deriving DecidableEq, Repr

/-- Go `internalSet` (set.go): all enums registered for one host type, in
insertion order, plus the allocation counter and the exhaustion flag. -/
structure InternalSet where
  nameEnumMap : List InternalEnum
  nextID : Int
  exhaustedID : Bool
deriving DecidableEq, Repr

/-- Go `newInternalSet`: the empty set. -/
def newInternalSet : InternalSet := ⟨[], 0, false⟩

/-- Go `(*internalSet).Get`: map lookup by name (`nil` becomes `none`). -/
def InternalSet.Get (s : InternalSet) (name : String) : Option InternalEnum :=
  s.nameEnumMap.find? (fun e => e.name == name)

/-- The two panics `(*internalSet).Add` can raise. -/
inductive AddPanic where
  | tooMany
  | duplicateName
deriving DecidableEq, Repr

/-- Go `(*internalSet).Add` (set.go, `exhaustedID` variant).  Returns the
result (the new enum, or the panic raised) together with the state of
the set afterwards; both panics happen before any mutation, so the
state returned with an error is the input state. -/
def InternalSet.Add (it : IntType) (s : InternalSet) (name : String) :
    Except AddPanic InternalEnum × InternalSet :=
  if s.exhaustedID then
    (.error .tooMany, s)
  else if (s.Get name).isSome then
    (.error .duplicateName, s)
  else
    -- id := atomic.AddInt64(&s.nextID, 1); newID := id - 1
    let id := wrap64 (s.nextID + 1)
    let newID := wrap64 (id - 1)
    -- if T(newID) > T(id) { s.exhaustedID = true }
    let exhausted := if it.conv newID > it.conv id then true else s.exhaustedID
    let e : InternalEnum := ⟨name, it.conv newID⟩
    (.ok e, ⟨s.nameEnumMap ++ [e], id, exhausted⟩)

section ArithLemmas

/-- The function `conv` only depends on the argument's residue modulo `2^bits`. -/
theorem IntType.conv_congr (it : IntType) {x y : Int}
    (h : x % 2 ^ it.bits = y % 2 ^ it.bits) : it.conv x = it.conv y := by
  unfold IntType.conv
  rw [h]

theorem wrap64_emod (it : IntType) (hb : it.bits ≤ 64) (x : Int) :
    wrap64 x % 2 ^ it.bits = x % 2 ^ it.bits := by
  have hdvd : (2 : Int) ^ it.bits ∣ 2 ^ 64 := pow_dvd_pow 2 hb
  have hz : (2 : Int) ^ 64 % 2 ^ it.bits = 0 := Int.emod_eq_zero_of_dvd hdvd
  unfold wrap64 IntType.conv i64
  split
  · rw [Int.sub_emod, Int.emod_emod_of_dvd _ hdvd, hz, sub_zero]
    exact Int.emod_emod_of_dvd _ dvd_rfl
  · exact Int.emod_emod_of_dvd _ hdvd

theorem IntType.KVal_le (it : IntType) : it.KVal ≤ 2 ^ it.bits := by
  unfold IntType.KVal
  split
  · exact Nat.pow_le_pow_right (by norm_num) (Nat.sub_le _ _)
  · exact le_rfl

theorem IntType.KVal_pos (it : IntType) : 1 ≤ it.KVal := by
  unfold IntType.KVal
  split <;> exact Nat.one_le_two_pow

/-- Truncating a small non-negative value is the identity. -/
theorem IntType.conv_nat_lt (it : IntType) {n : Nat} (h : n < it.KVal) :
    it.conv (n : Int) = n := by
  have hn2 : (n : Int) < 2 ^ it.bits := by
    have h2 : ((it.KVal : Nat) : Int) ≤ ((2 ^ it.bits : Nat) : Int) := by
      exact_mod_cast it.KVal_le
    push_cast at h2
    omega
  have hmod : (n : Int) % 2 ^ it.bits = n :=
    Int.emod_eq_of_lt (Int.ofNat_nonneg n) hn2
  unfold IntType.conv
  rw [hmod]
  rcases hs : it.signed with _ | _
  · simp
  · rw [if_neg]
    intro hsplit
    have hK : it.KVal = 2 ^ (it.bits - 1) := by unfold IntType.KVal; simp [hs]
    have hlt : (n : Int) < 2 ^ (it.bits - 1) := by
      rw [hK] at h
      have : ((n : Nat) : Int) < ((2 ^ (it.bits - 1) : Nat) : Int) := by
        exact_mod_cast h
      push_cast at this
      omega
    omega

/-- Truncating the first non-representable value `KVal` wraps it: to
`-(2^(bits-1))` when signed, to `0` when unsigned. -/
theorem IntType.conv_KVal (it : IntType) (hb1 : 1 ≤ it.bits) :
    it.conv (it.KVal : Int) =
      if it.signed then -((2 : Int) ^ (it.bits - 1)) else 0 := by
  unfold IntType.conv IntType.KVal
  rcases hs : it.signed with _ | _
  · simp only [hs, if_false, Bool.false_eq_true, false_and]
    push_cast
    rw [Int.emod_self]
  · simp only [hs, if_true, true_and]
    have hlt : (2 : Int) ^ (it.bits - 1) < 2 ^ it.bits := by
      apply pow_lt_pow_right₀ (by norm_num)
      omega
    have hmod : ((2 ^ (it.bits - 1) : Nat) : Int) % 2 ^ it.bits =
        2 ^ (it.bits - 1) := by
      push_cast
      exact Int.emod_eq_of_lt (by positivity) hlt
    rw [hmod, if_pos le_rfl]
    have h2 : (2 : Int) ^ it.bits = 2 ^ (it.bits - 1) * 2 := by
      rw [← pow_succ]
      congr 1
      omega
    rw [h2]; ring

/-- The Go overflow test `T(newID) > T(id)` (with `newID = n`,
`id = n + 1`) fires exactly at the type's boundary `n + 1 = KVal`. -/
theorem IntType.conv_succ_lt_iff (it : IntType) (hb1 : 1 ≤ it.bits)
    {n : Nat} (h : n + 1 ≤ it.KVal) :
    (it.conv ((n : Int) + 1) < it.conv (n : Int)) ↔ n + 1 = it.KVal := by
  rcases Nat.lt_or_ge (n + 1) it.KVal with hlt | hge
  · have h1 : it.conv (n : Int) = n := it.conv_nat_lt (by omega)
    have h2 : it.conv ((n : Int) + 1) = (n : Int) + 1 := by
      have := @IntType.conv_nat_lt it (n + 1) hlt
      push_cast at this ⊢
      exact this
    rw [h1, h2]
    constructor
    · intro hc; omega
    · intro hc; omega
  · have heq : n + 1 = it.KVal := le_antisymm h hge
    have h1 : it.conv (n : Int) = n := it.conv_nat_lt (by omega)
    have h2 : it.conv ((n : Int) + 1) = it.conv (it.KVal : Int) := by
      congr 1
      push_cast [← heq]
      ring
    rw [h1, h2, it.conv_KVal hb1]
    refine ⟨fun _ => heq, fun _ => ?_⟩
    rcases hs : it.signed with _ | _
    · -- unsigned: conv KVal = 0; need 0 < n, i.e. KVal ≥ 2
      rw [if_neg (by simp [hs])]
      have hK : it.KVal = 2 ^ it.bits := by unfold IntType.KVal; simp [hs]
      have h2K : 2 ≤ it.KVal := by
        rw [hK]
        calc (2 : Nat) = 2 ^ 1 := by norm_num
          _ ≤ 2 ^ it.bits := Nat.pow_le_pow_right (by norm_num) hb1
      have : 1 ≤ n := by omega
      have : (1 : Int) ≤ (n : Int) := by exact_mod_cast this
      omega
    · rw [if_pos (by simp [hs])]
      have hp : (0 : Int) < 2 ^ (it.bits - 1) := by positivity
      have : (0 : Int) ≤ (n : Int) := Int.ofNat_nonneg n
      omega

end ArithLemmas

section ConvWrap

theorem IntType.conv_wrap64 (it : IntType) (hb : it.bits ≤ 64) (x : Int) :
    it.conv (wrap64 x) = it.conv x :=
  it.conv_congr (wrap64_emod it hb x)

theorem IntType.conv_wrap64_add (it : IntType) (hb : it.bits ≤ 64) (x y : Int) :
    it.conv (wrap64 x + y) = it.conv (x + y) := by
  apply it.conv_congr
  rw [Int.add_emod, wrap64_emod it hb, ← Int.add_emod]

theorem wrap64_wrap64_add (x y : Int) :
    wrap64 (wrap64 x + y) = wrap64 (x + y) :=
  IntType.conv_wrap64_add i64 le_rfl x y

end ConvWrap

/-- The registry invariant of the spec, indexed by the number `n` of
entries: identifiers in insertion order are exactly `0, 1, ..., n-1`,
names are pairwise distinct, the allocation counter holds `n` (as a
wrapped `int64`), and the set is exhausted precisely at the boundary
`n = KVal`. -/
def SetInv (it : IntType) (s : InternalSet) (n : Nat) : Prop :=
  n ≤ it.KVal ∧
  s.nextID = wrap64 (n : Int) ∧
  s.exhaustedID = decide (n = it.KVal) ∧
  s.nameEnumMap.map InternalEnum.id = (List.range n).map Int.ofNat ∧
  (s.nameEnumMap.map InternalEnum.name).Nodup

theorem setInv_empty (it : IntType) (hb1 : 1 ≤ it.bits) :
    SetInv it newInternalSet 0 := by
  refine ⟨Nat.zero_le _, by simp [newInternalSet, wrap64, IntType.conv, i64], ?_, by
    simp [newInternalSet], by simp [newInternalSet]⟩
  have : (0 : Nat) ≠ it.KVal := by
    have := it.KVal_pos
    omega
  simp [newInternalSet, this]

theorem InternalSet.get_eq_none_iff (s : InternalSet) (name : String) :
    s.Get name = none ↔ ∀ e ∈ s.nameEnumMap, e.name ≠ name := by
  unfold InternalSet.Get
  rw [List.find?_eq_none]
  constructor
  · intro h e he
    have := h e he
    simpa using this
  · intro h e he
    simpa using h e he

theorem setInv_length {it : IntType} {s : InternalSet} {n : Nat}
    (hinv : SetInv it s n) : s.nameEnumMap.length = n := by
  obtain ⟨-, -, -, hids, -⟩ := hinv
  have := congrArg List.length hids
  simpa using this

/-- Unfolding of the success branch of `Add`. -/
theorem InternalSet.add_unfold (it : IntType) {s : InternalSet} {name : String}
    (h1 : s.exhaustedID = false) (h2 : s.Get name = none) :
    s.Add it name =
      (.ok ⟨name, it.conv (wrap64 (wrap64 (s.nextID + 1) - 1))⟩,
        ⟨s.nameEnumMap ++ [⟨name, it.conv (wrap64 (wrap64 (s.nextID + 1) - 1))⟩],
          wrap64 (s.nextID + 1),
          decide (it.conv (wrap64 (s.nextID + 1)) <
            it.conv (wrap64 (wrap64 (s.nextID + 1) - 1)))⟩) := by
  unfold InternalSet.Add
  rw [h1, h2]
  simp

/-- Step lemma, success case: from a state with `n < KVal` entries, the
fresh-name `Add` returns the entry `⟨name, n⟩`, appends it, bumps the
counter and sets the exhaustion flag exactly when `n + 1 = KVal`. -/
theorem InternalSet.add_ok (it : IntType) (hb1 : 1 ≤ it.bits)
    (hb64 : it.bits ≤ 64) {s : InternalSet} {n : Nat}
    (hinv : SetInv it s n) (hlt : n < it.KVal) {name : String}
    (hfresh : s.Get name = none) :
    s.Add it name = (.ok ⟨name, (n : Int)⟩,
      ⟨s.nameEnumMap ++ [⟨name, (n : Int)⟩], wrap64 ((n : Int) + 1),
        decide (n + 1 = it.KVal)⟩) ∧
    SetInv it (s.Add it name).2 (n + 1) := by
  obtain ⟨hK, hnext, hex, hids, hnames⟩ := hinv
  have hexf : s.exhaustedID = false := by
    rw [hex]
    simp [Nat.ne_of_lt hlt]
  have hstep := InternalSet.add_unfold it hexf hfresh
  rw [hnext, wrap64_wrap64_add] at hstep
  have hnewid : wrap64 (wrap64 ((n : Int) + 1) - 1) = wrap64 (n : Int) := by
    rw [sub_eq_add_neg, wrap64_wrap64_add]
    congr 1
    ring
  rw [hnewid] at hstep
  have hconv_new : it.conv (wrap64 (n : Int)) = (n : Int) := by
    rw [it.conv_wrap64 hb64]
    exact it.conv_nat_lt hlt
  have hconv_id : it.conv (wrap64 ((n : Int) + 1)) = it.conv ((n : Int) + 1) :=
    it.conv_wrap64 hb64 _
  rw [hconv_new, hconv_id] at hstep
  have hcmp : (it.conv ((n : Int) + 1) < (n : Int)) ↔ n + 1 = it.KVal := by
    have h0 := it.conv_succ_lt_iff hb1 (by omega : n + 1 ≤ it.KVal)
    rwa [it.conv_nat_lt hlt] at h0
  rw [decide_eq_decide.mpr hcmp] at hstep
  refine ⟨hstep, ?_⟩
  rw [hstep]
  have hnotin : ∀ e ∈ s.nameEnumMap, e.name ≠ name :=
    (s.get_eq_none_iff name).1 hfresh
  refine ⟨by omega, by push_cast; rfl, rfl, ?_, ?_⟩
  · simp only [List.map_append, hids, List.map_cons, List.map_nil]
    rw [List.range_succ, List.map_append]
    simp
  · simp only [List.map_append, List.map_cons, List.map_nil]
    rw [List.nodup_append]
    refine ⟨hnames, List.nodup_singleton _, ?_⟩
    intro a ha hb
    simp only [List.mem_singleton] at hb
    subst hb
    obtain ⟨e, he, hename⟩ := List.mem_map.1 ha
    exact hnotin e he hename

/-- Step lemma, exhaustion case: once the set is exhausted, any `Add`
panics with "too many enums in enum set" before touching the state —
whatever the name, even a duplicate one. -/
theorem InternalSet.add_exhausted (it : IntType) {s : InternalSet}
    (hex : s.exhaustedID = true) (name : String) :
    s.Add it name = (.error .tooMany, s) := by
  unfold InternalSet.Add
  rw [hex]
  simp

/-- Step lemma, duplicate case: in a non-exhausted set, adding a name
that is already present panics with "duplicate name in enum set" before
touching the state. -/
theorem InternalSet.add_dup (it : IntType) {s : InternalSet} {name : String}
    (hex : s.exhaustedID = false) (hdup : (s.Get name).isSome) :
    s.Add it name = (.error .duplicateName, s) := by
  unfold InternalSet.Add
  rw [hex, hdup]
  simp

/-- Any single `Add` call — successful or panicking — preserves the
registry invariant. -/
theorem InternalSet.add_setInv (it : IntType) (hb1 : 1 ≤ it.bits)
    (hb64 : it.bits ≤ 64) {s : InternalSet} {n : Nat}
    (hinv : SetInv it s n) (name : String) :
    ∃ n', SetInv it (s.Add it name).2 n' := by
  rcases hex : s.exhaustedID with _ | _
  · rcases hget : s.Get name with _ | e
    · have hlt : n < it.KVal := by
        obtain ⟨hK, -, hflag, -, -⟩ := hinv
        rw [hex] at hflag
        have : ¬(n = it.KVal) := by
          intro h
          simp [h] at hflag
        omega
      exact ⟨n + 1, (InternalSet.add_ok it hb1 hb64 hinv hlt hget).2⟩
    · rw [InternalSet.add_dup it hex (by rw [hget]; rfl)]
      exact ⟨n, hinv⟩
  · rw [InternalSet.add_exhausted it hex name]
    exact ⟨n, hinv⟩

/-- Folding a list of `Add` calls over a set, keeping only the state
(each Go call either returns or panics; the state is all that persists). -/
def InternalSet.runAdds (it : IntType) (s : InternalSet) (names : List String) :
    InternalSet :=
  names.foldl (fun s nm => (s.Add it nm).2) s

/-- The list of results of a sequence of `Add` calls. -/
def InternalSet.addResults (it : IntType) (s : InternalSet) :
    List String → List (Except AddPanic InternalEnum)
  | [] => []
  | nm :: rest => (s.Add it nm).1 :: InternalSet.addResults it (s.Add it nm).2 rest

theorem InternalSet.runAdds_nil (it : IntType) (s : InternalSet) :
    s.runAdds it [] = s := rfl

theorem InternalSet.runAdds_cons (it : IntType) (s : InternalSet)
    (nm : String) (rest : List String) :
    s.runAdds it (nm :: rest) = ((s.Add it nm).2).runAdds it rest := rfl

/-- Any sequence of `Add` calls starting from an invariant-satisfying
state ends in an invariant-satisfying state. -/
theorem InternalSet.runAdds_setInv (it : IntType) (hb1 : 1 ≤ it.bits)
    (hb64 : it.bits ≤ 64) (names : List String) :
    ∀ {s : InternalSet} {n : Nat}, SetInv it s n →
      ∃ n', SetInv it (s.runAdds it names) n' := by
  induction names with
  | nil => exact fun hinv => ⟨_, hinv⟩
  | cons nm rest ih =>
    intro s n hinv
    rw [InternalSet.runAdds_cons]
    obtain ⟨n', hinv'⟩ := InternalSet.add_setInv it hb1 hb64 hinv nm
    exact ih hinv'

/-- One `Add` call appends exactly the entry it returns (and nothing on
a panic). -/
theorem InternalSet.add_map_append (it : IntType) (s : InternalSet) (nm : String) :
    (s.Add it nm).2.nameEnumMap =
      s.nameEnumMap ++ ((s.Add it nm).1.toOption.toList) := by
  unfold InternalSet.Add
  split
  · simp [Except.toOption]
  · split
    · simp [Except.toOption]
    · simp [Except.toOption]

/-- The entries of the registry after a sequence of `Add` calls are the
initial entries followed by the successful calls' results, in
call-completion order. -/
theorem InternalSet.runAdds_map_eq (it : IntType) (names : List String) :
    ∀ s : InternalSet, (s.runAdds it names).nameEnumMap =
      s.nameEnumMap ++ (InternalSet.addResults it s names).filterMap Except.toOption := by
  induction names with
  | nil => intro s; simp [InternalSet.runAdds, InternalSet.addResults]
  | cons nm rest ih =>
    intro s
    rw [InternalSet.runAdds_cons, ih, InternalSet.addResults,
      List.filterMap_cons, InternalSet.add_map_append]
    rcases h : (s.Add it nm).1.toOption with _ | e
    · simp
    · simp

/-- C1.  After any sequence of `Add` calls for one host type, the
registry holds pairwise-distinct names, its identifiers in creation
order are exactly `0, 1, ..., N-1` for `N` the number of entries, and
the entries are exactly the results of the successful calls in
call-completion order. -/
theorem c1_contiguous_identifiers (it : IntType) (hb1 : 1 ≤ it.bits)
    (hb64 : it.bits ≤ 64) (names : List String) :
    (newInternalSet.runAdds it names).nameEnumMap.map InternalEnum.id =
      (List.range (newInternalSet.runAdds it names).nameEnumMap.length).map Int.ofNat ∧
    ((newInternalSet.runAdds it names).nameEnumMap.map InternalEnum.name).Nodup ∧
    (newInternalSet.runAdds it names).nameEnumMap =
      (InternalSet.addResults it newInternalSet names).filterMap Except.toOption := by
  obtain ⟨n', hinv⟩ :=
    InternalSet.runAdds_setInv it hb1 hb64 names (setInv_empty it hb1)
  have hlen := setInv_length hinv
  obtain ⟨-, -, -, hids, hnames⟩ := hinv
  refine ⟨?_, hnames, ?_⟩
  · rw [hlen]
    exact hids
  · have := InternalSet.runAdds_map_eq it names newInternalSet
    simpa [newInternalSet] using this

/-- Witness for C1 at the host type `int8` and a call sequence with a
duplicate in the middle. -/
theorem c1_contiguous_identifiers_witness :
    (1 ≤ (IntType.mk true 8).bits ∧ (IntType.mk true 8).bits ≤ 64) ∧
    ((newInternalSet.runAdds ⟨true, 8⟩ ["a", "b", "a", "c"]).nameEnumMap.map InternalEnum.id =
      (List.range (newInternalSet.runAdds ⟨true, 8⟩ ["a", "b", "a", "c"]).nameEnumMap.length).map Int.ofNat ∧
    ((newInternalSet.runAdds ⟨true, 8⟩ ["a", "b", "a", "c"]).nameEnumMap.map InternalEnum.name).Nodup ∧
    (newInternalSet.runAdds ⟨true, 8⟩ ["a", "b", "a", "c"]).nameEnumMap =
      (InternalSet.addResults ⟨true, 8⟩ newInternalSet ["a", "b", "a", "c"]).filterMap Except.toOption) :=
  ⟨⟨by decide, by decide⟩,
    c1_contiguous_identifiers ⟨true, 8⟩ (by decide) (by decide) ["a", "b", "a", "c"]⟩

/-- Run lemma, all-success case: from a state with `n` entries, adding
pairwise-distinct fresh names that fit in the remaining identifier
space succeeds throughout, handing out the identifiers `n, n+1, ...` in
call order. -/
theorem InternalSet.addResults_all_ok (it : IntType) (hb1 : 1 ≤ it.bits)
    (hb64 : it.bits ≤ 64) (names : List String) :
    ∀ {s : InternalSet} {n : Nat}, SetInv it s n → names.Nodup →
      (∀ nm ∈ names, s.Get nm = none) → n + names.length ≤ it.KVal →
      InternalSet.addResults it s names =
        (names.enumFrom n).map (fun p => Except.ok ⟨p.2, (p.1 : Int)⟩) ∧
      SetInv it (s.runAdds it names) (n + names.length) := by
  induction names with
  | nil =>
    intro s n hinv _ _ _
    exact ⟨rfl, by simpa using hinv⟩
  | cons nm rest ih =>
    intro s n hinv hnodup hfresh hfit
    have hlt : n < it.KVal := by
      have := hfit
      simp only [List.length_cons] at this
      omega
    have hfresh0 : s.Get nm = none := hfresh nm (List.mem_cons_self nm rest)
    obtain ⟨hstep, hinv'⟩ := InternalSet.add_ok it hb1 hb64 hinv hlt hfresh0
    have hfresh' : ∀ nm' ∈ rest, ((s.Add it nm).2).Get nm' = none := by
      intro nm' hmem
      rw [InternalSet.get_eq_none_iff]
      intro e he
      rw [hstep] at he
      simp only [List.mem_append, List.mem_singleton] at he
      rcases he with he | he
      · exact (s.get_eq_none_iff nm').1 (hfresh nm' (List.mem_cons_of_mem nm hmem)) e he
      · subst he
        simp only
        intro hcontra
        rw [hcontra] at hnodup
        exact (List.nodup_cons.1 hnodup).1 hmem
    have hnodup' : rest.Nodup := (List.nodup_cons.1 hnodup).2
    have hfit' : (n + 1) + rest.length ≤ it.KVal := by
      simp only [List.length_cons] at hfit
      omega
    obtain ⟨hres, hinvF⟩ := ih hinv' hnodup' hfresh' hfit'
    constructor
    · rw [InternalSet.addResults, hres, hstep]
      simp only [List.enumFrom, List.map_cons]
    · rw [InternalSet.runAdds_cons]
      have : n + (nm :: rest).length = (n + 1) + rest.length := by
        simp only [List.length_cons]
        omega
      rw [this]
      exact hinvF

/-- C2.  For a host type with exactly `KVal` representable identifier
values, registering `KVal` distinct names succeeds throughout with the
identifiers `0 .. KVal-1` in call order, and any further registration —
whatever its name — panics with the identifier-overflow condition
`tooMany` ("too many enums in enum set"), leaving the set unchanged. -/
theorem c2_overflow_boundary (it : IntType) (hb1 : 1 ≤ it.bits)
    (hb64 : it.bits ≤ 64) (names : List String) (hlen : names.length = it.KVal)
    (hnodup : names.Nodup) :
    InternalSet.addResults it newInternalSet names =
      (names.enumFrom 0).map (fun p => Except.ok ⟨p.2, (p.1 : Int)⟩) ∧
    ∀ nm' : String, (newInternalSet.runAdds it names).Add it nm' =
      (.error .tooMany, newInternalSet.runAdds it names) := by
  have hfresh : ∀ nm ∈ names, newInternalSet.Get nm = none := by
    intro nm _
    rfl
  have hfit : 0 + names.length ≤ it.KVal := by omega
  obtain ⟨hres, hinvF⟩ := InternalSet.addResults_all_ok it hb1 hb64 names
    (setInv_empty it hb1) hnodup hfresh hfit
  refine ⟨hres, fun nm' => ?_⟩
  obtain ⟨-, -, hflag, -, -⟩ := hinvF
  have hexh : (newInternalSet.runAdds it names).exhaustedID = true := by
    rw [hflag]
    simp [hlen]
  exact InternalSet.add_exhausted it hexh nm'

/-- 128 distinct names, `"n0" .. "n127"`: a full identifier space for
the Go host type `int8` (`KVal = 128`), mirroring the library's own
`TestEnum_Overflow`. -/
def names128 : List String := (List.range 128).map (fun i => "n" ++ toString i)

set_option maxRecDepth 100000 in
/-- Witness for C2 at the host type `int8`: 128 registrations succeed
with identifiers `0 .. 127` and any 129th call overflows. -/
theorem c2_overflow_boundary_witness :
    (1 ≤ (IntType.mk true 8).bits ∧ (IntType.mk true 8).bits ≤ 64 ∧
      names128.length = (IntType.mk true 8).KVal ∧ names128.Nodup) ∧
    (InternalSet.addResults ⟨true, 8⟩ newInternalSet names128 =
      (names128.enumFrom 0).map (fun p => Except.ok ⟨p.2, (p.1 : Int)⟩) ∧
    ∀ nm' : String, (newInternalSet.runAdds ⟨true, 8⟩ names128).Add ⟨true, 8⟩ nm' =
      (.error .tooMany, newInternalSet.runAdds ⟨true, 8⟩ names128)) :=
  ⟨⟨by decide, by decide, by decide, by decide⟩,
    c2_overflow_boundary ⟨true, 8⟩ (by decide) (by decide) names128 (by decide) (by decide)⟩

/-- The global directory `setByTypeName`: host-type name → its set.
Go's `getTypeName[T]` (`PkgPath() + "." + Name()`) gives distinct keys
for distinct host types, so the key is modelled as the type-name string
itself; the host type's integer kind is recovered by a map
`ity : String → IntType`. -/
abbrev Directory := List (String × InternalSet)

/-- Go `setByTypeName[typeName]` read access (`nil`/absent becomes `none`). -/
def dirLookup (dir : Directory) (ty : String) : Option InternalSet :=
  (dir.find? (fun p => p.1 == ty)).map Prod.snd

/-- Go `setByTypeName[typeName] = s`: update the binding in place, or
append a binding for a new key. -/
def dirInsert : Directory → String → InternalSet → Directory
  | [], ty, s => [(ty, s)]
  | (t, s0) :: rest, ty, s =>
    if t == ty then (t, s) :: rest else (t, s0) :: dirInsert rest ty s

/-- Go `getOrCreateSetForType` (enum.go): return the existing set for the
type, or create, store and return an empty one.  The Go function works
on the set through a pointer stored in the map, so after a subsequent
`Add` the directory holds the mutated set; the model threads that state
explicitly through `New`. -/
def getOrCreateSetForType (dir : Directory) (ty : String) :
    InternalSet × Directory :=
  match dirLookup dir ty with
  | some s => (s, dir)
  | none => (newInternalSet, dirInsert dir ty newInternalSet)

/-- The panics `New` can raise: its own empty-name check, or a panic
propagated from `Add`. -/
inductive NewPanic where
  | emptyName
  | setPanic (p : AddPanic)
deriving DecidableEq, Repr

/-- The public `Enum[T]` handle: it embeds `internalEnumWrapper`, whose
only field is the (possibly nil) `*internalEnum`.  The zero value has a
nil pointer, i.e. `internalEnum = none`. -/
structure Enum where
  internalEnum : Option InternalEnum
deriving DecidableEq, Repr

/-- Go `New` (enum.go, wrapper variant): empty-name check, find-or-create
the type's set, then delegate to `Add`. -/
def New (ity : String → IntType) (dir : Directory) (ty name : String) :
    Except NewPanic Enum × Directory :=
  if name = "" then
    (.error .emptyName, dir)
  else
    let s0 := (getOrCreateSetForType dir ty).1
    let dir1 := (getOrCreateSetForType dir ty).2
    let r := s0.Add (ity ty) name
    ((r.1.map (fun e => Enum.mk (some e))).mapError NewPanic.setPanic,
      dirInsert dir1 ty r.2)

/-- Go `EnumsByType` (enum.go): `setByTypeName[getTypeName[T]()]` is read
without an ok-check and type-asserted.  For a type with no set, the
assertion `s.(*internalSet[T])` is performed on a nil `any` and panics;
this is the `none` result.  Otherwise every stored entry is wrapped
into a handle. -/
def EnumsByType (dir : Directory) (ty : String) : Option (List Enum) :=
  match dirLookup dir ty with
  | none => none
  | some s => some (s.nameEnumMap.map (fun e => Enum.mk (some e)))

/-- The recoverable (returned, never panicking) errors of the
deserialization paths. -/
inductive GoErr where
  | unregisteredType
  | unknownName
  | notAString
  | notStringOrBytes
  | notInitialized
deriving DecidableEq, Repr

/-- Go `getInternalEnumForName` (enum.go): directory lookup then name
lookup, each failure reported as a returned error. -/
def getInternalEnumForName (dir : Directory) (ty name : String) :
    Except GoErr InternalEnum :=
  match dirLookup dir ty with
  | none => .error .unregisteredType
  | some s =>
    match s.Get name with
    | none => .error .unknownName
    | some e => .ok e

/-- The unrecoverable-usage panic of `Name`/`ID` on an uninitialized
handle ("enum not initialized"). -/
inductive UsagePanic where
  | enumNotInitialized
deriving DecidableEq, Repr

/-- Go `(*internalEnumWrapper).Valid`: true iff the inner pointer is
non-nil. -/
def Enum.Valid (e : Enum) : Bool :=
  e.internalEnum.isSome

/-- Go `internalEnumWrapper.Name`: panics on an invalid handle. -/
def Enum.Name (e : Enum) : Except UsagePanic String :=
  match e.internalEnum with
  | none => .error .enumNotInitialized
  | some ie => .ok ie.name

/-- Go `internalEnumWrapper.ID`: panics on an invalid handle. -/
def Enum.ID (e : Enum) : Except UsagePanic Int :=
  match e.internalEnum with
  | none => .error .enumNotInitialized
  | some ie => .ok ie.id

/-- Go `internalEnumWrapper.MarshalJSON`: a recoverable error when
invalid, otherwise `json.Marshal(e.Name())` — a JSON string whose
payload is the name. -/
def Enum.MarshalJSON (e : Enum) : Except GoErr String :=
  match e.internalEnum with
  | none => .error .notInitialized
  | some ie => .ok ie.name

/-- Go `internalEnumWrapper.MarshalText`: the name as the text payload. -/
def Enum.MarshalText (e : Enum) : Except GoErr String :=
  match e.internalEnum with
  | none => .error .notInitialized
  | some ie => .ok ie.name

/-- Go `internalEnumWrapper.Value` (driver.Valuer): the name as the SQL
value. -/
def Enum.Value (e : Enum) : Except GoErr String :=
  match e.internalEnum with
  | none => .error .notInitialized
  | some ie => .ok ie.name

/-- Go `(*internalEnumWrapper).UnmarshalJSON`.  The input is the JSON
document, modelled by its decoded string payload (`none` for a
non-string document).  Go's
`e.internalEnum, err = getInternalEnumForName[T](name)` assigns the
returned pointer — nil on failure — to the handle before the error
check, so a failed lookup leaves the handle unbound. -/
def Enum.UnmarshalJSON (dir : Directory) (ty : String) (e : Enum)
    (data : Option String) : Enum × Option GoErr :=
  match data with
  | none => (e, some .notAString)
  | some name =>
    match getInternalEnumForName dir ty name with
    | .error err => (⟨none⟩, some err)
    | .ok ie => (⟨some ie⟩, none)

/-- Go `(*internalEnumWrapper).UnmarshalText`: same assignment pattern as
`UnmarshalJSON`, without the JSON decoding step. -/
def Enum.UnmarshalText (dir : Directory) (ty : String) (e : Enum)
    (text : String) : Enum × Option GoErr :=
  match getInternalEnumForName dir ty text with
  | .error err => (⟨none⟩, some err)
  | .ok ie => (⟨some ie⟩, none)

/-- The `any` value handed to `Scan`: SQL NULL, a string, a byte slice
(its string contents), or any other value. -/
inductive ScanValue where
  | nil
  | str (s : String)
  | bytes (s : String)
  | other
deriving DecidableEq, Repr

/-- Go `(*internalEnumWrapper).Scan`: nil is accepted unchanged, strings
and byte slices are looked up by name (with the same
assign-then-check pattern), anything else is a returned error. -/
def Enum.Scan (dir : Directory) (ty : String) (e : Enum)
    (v : ScanValue) : Enum × Option GoErr :=
  match v with
  | .nil => (e, none)
  | .other => (e, some .notStringOrBytes)
  | .str name =>
    match getInternalEnumForName dir ty name with
    | .error err => (⟨none⟩, some err)
    | .ok ie => (⟨some ie⟩, none)
  | .bytes name =>
    match getInternalEnumForName dir ty name with
    | .error err => (⟨none⟩, some err)
    | .ok ie => (⟨some ie⟩, none)

section DirectoryLemmas

theorem dirLookup_nil (ty : String) : dirLookup [] ty = none := rfl

theorem dirLookup_dirInsert_self (dir : Directory) (ty : String)
    (s : InternalSet) : dirLookup (dirInsert dir ty s) ty = some s := by
  induction dir with
  | nil => simp [dirInsert, dirLookup, List.find?]
  | cons p rest ih =>
    obtain ⟨t, s0⟩ := p
    by_cases h : t = ty
    · simp [dirInsert, dirLookup, List.find?, h]
    · simp only [dirInsert, beq_iff_eq, h, if_false]
      unfold dirLookup at ih ⊢
      simp only [List.find?]
      have : (t == ty) = false := by simp [h]
      rw [this]
      exact ih

theorem dirLookup_dirInsert_ne (dir : Directory) {ty ty' : String}
    (h : ty' ≠ ty) (s : InternalSet) :
    dirLookup (dirInsert dir ty s) ty' = dirLookup dir ty' := by
  induction dir with
  | nil =>
    simp only [dirInsert, dirLookup, List.find?]
    have : (ty == ty') = false := by simp [Ne.symm h]
    rw [this]
  | cons p rest ih =>
    obtain ⟨t, s0⟩ := p
    by_cases ht : t = ty
    · subst ht
      simp only [dirInsert, beq_self_eq_true, if_true]
      unfold dirLookup
      simp only [List.find?]
      have : (t == ty') = false := by simp [Ne.symm h]
      rw [this]
    · simp only [dirInsert, beq_iff_eq, ht, if_false]
      unfold dirLookup at ih ⊢
      simp only [List.find?]
      by_cases ht' : t = ty'
      · simp [ht']
      · have : (t == ty') = false := by simp [ht']
        rw [this]
        exact ih

theorem dirInsert_self {dir : Directory} {ty : String} {s : InternalSet}
    (h : dirLookup dir ty = some s) : dirInsert dir ty s = dir := by
  induction dir with
  | nil => simp [dirLookup, List.find?] at h
  | cons p rest ih =>
    obtain ⟨t, s0⟩ := p
    by_cases ht : t = ty
    · subst ht
      unfold dirLookup at h
      simp only [List.find?, beq_self_eq_true] at h
      simp only [Option.map] at h
      injection h with h
      simp [dirInsert, h]
    · unfold dirLookup at h
      simp only [List.find?] at h
      have hbeq : (t == ty) = false := by simp [ht]
      rw [hbeq] at h
      simp only [dirInsert, hbeq, Bool.false_eq_true, if_false]
      rw [ih h]

end DirectoryLemmas

section AddInversion

/-- A panicking `Add` leaves the set untouched. -/
theorem InternalSet.add_err_state (it : IntType) (s : InternalSet)
    (name : String) {p : AddPanic}
    (h : (s.Add it name).1 = .error p) : (s.Add it name).2 = s := by
  rcases hex : s.exhaustedID with _ | _
  · rcases hdup : (s.Get name).isSome with _ | _
    · exfalso
      simp [InternalSet.Add, hex, hdup] at h
    · simp [InternalSet.Add, hex, hdup]
  · simp [InternalSet.Add, hex]

/-- Inversion of a successful `Add`: the guards were false, the entry
carries the requested name, and it was appended to the map. -/
theorem InternalSet.add_ok_inv {it : IntType} {s : InternalSet}
    {name : String} {e : InternalEnum} {s' : InternalSet}
    (h : s.Add it name = (.ok e, s')) :
    s.exhaustedID = false ∧ s.Get name = none ∧ e.name = name ∧
    s'.nameEnumMap = s.nameEnumMap ++ [e] := by
  unfold InternalSet.Add at h
  split at h
  · simp at h
  · split at h
    · simp at h
    · rename_i hex hdup
      simp only [Prod.mk.injEq] at h
      obtain ⟨h1, h2⟩ := h
      injection h1 with h1
      refine ⟨by simpa using hex, ?_, ?_, ?_⟩
      · exact Option.not_isSome_iff_eq_none.1 (by simpa using hdup)
      · rw [← h1]
      · rw [← h2, ← h1]

/-- Appending a fresh entry makes it findable by name. -/
theorem find_name_append (l : List InternalEnum) (name : String)
    (e : InternalEnum) (h : l.find? (fun x => x.name == name) = none)
    (he : e.name = name) :
    (l ++ [e]).find? (fun x => x.name == name) = some e := by
  induction l with
  | nil => simp [List.find?, he]
  | cons a l ih =>
    simp only [List.find?, List.cons_append] at h ⊢
    rcases hx : (a.name == name) with _ | _
    · rw [hx] at h
      simp only at h ⊢
      exact ih h
    · rw [hx] at h
      simp at h

end AddInversion

theorem IntType.conv_zero (it : IntType) : it.conv 0 = 0 := by
  unfold IntType.conv
  rw [Int.zero_emod]
  rw [if_neg]
  intro hcontra
  have hp : (0 : Int) < 2 ^ (it.bits - 1) := by positivity
  omega

/-- Inversion of a successful `New`: the name was non-empty, the
underlying `Add` succeeded on the type's (found or created) set, the
returned handle wraps the new entry, and the directory binds the type
to the grown set. -/
theorem New_ok_inv {ity : String → IntType} {dir : Directory}
    {ty name : String} {h : Enum} {dir' : Directory}
    (hnew : New ity dir ty name = (.ok h, dir')) :
    ∃ e s1, h = ⟨some e⟩ ∧ e.name = name ∧
      (getOrCreateSetForType dir ty).1.Add (ity ty) name = (.ok e, s1) ∧
      dir' = dirInsert (getOrCreateSetForType dir ty).2 ty s1 ∧
      s1.nameEnumMap = (getOrCreateSetForType dir ty).1.nameEnumMap ++ [e] ∧
      (getOrCreateSetForType dir ty).1.Get name = none := by
  unfold New at hnew
  by_cases hname : name = ""
  · rw [if_pos hname] at hnew
    simp at hnew
  · rw [if_neg hname] at hnew
    simp only [] at hnew
    rcases hr : (getOrCreateSetForType dir ty).1.Add (ity ty) name with ⟨r1, s1⟩
    rw [hr] at hnew
    cases r1 with
    | error p => simp [Except.map, Except.mapError] at hnew
    | ok e =>
      simp only [Except.map, Except.mapError, Prod.mk.injEq] at hnew
      obtain ⟨h1, h2⟩ := hnew
      injection h1 with h1
      obtain ⟨-, hget, hename, hmap⟩ := InternalSet.add_ok_inv hr
      exact ⟨e, s1, h1.symm, hename, rfl, h2.symm, hmap, hget⟩

set_option maxRecDepth 10000 in
/-- Counterexample to C3.  Register `"A"` for host type `"T"` (an
`int32`-backed type); the handle `⟨some ⟨"A", 0⟩⟩` is bound.  Feeding
the JSON string `"B"` — a name never registered for `"T"` — to
`UnmarshalJSON` on that bound handle returns the recoverable
`unknownName` error but also resets the handle to the unbound state,
instead of leaving it bound to `("A", 0)` as the claim demands. -/
theorem c3_counterexample :
    (Enum.UnmarshalJSON (New (fun _ => ⟨true, 32⟩) [] "T" "A").2 "T"
        ⟨some ⟨"A", 0⟩⟩ (some "B")).2 = some .unknownName ∧
    (Enum.UnmarshalJSON (New (fun _ => ⟨true, 32⟩) [] "T" "A").2 "T"
        ⟨some ⟨"A", 0⟩⟩ (some "B")).1 = ⟨none⟩ ∧
    (⟨none⟩ : Enum) ≠ ⟨some ⟨"A", 0⟩⟩ := by
  refine ⟨by decide, by decide, by decide⟩

/-- C3 (amended).  Deserializing a name that fails the lookup — via
`UnmarshalJSON`, `UnmarshalText`, or `Scan` — returns a recoverable
error (never a panic), but resets the target handle's binding to nil:
an unbound handle stays unbound, while a previously bound handle loses
its name and identifier. -/
theorem c3_unknown_name_resets_handle (dir : Directory) (ty name : String)
    (e : Enum) {err : GoErr}
    (herr : getInternalEnumForName dir ty name = .error err) :
    Enum.UnmarshalJSON dir ty e (some name) = (⟨none⟩, some err) ∧
    Enum.UnmarshalText dir ty e name = (⟨none⟩, some err) ∧
    Enum.Scan dir ty e (.str name) = (⟨none⟩, some err) ∧
    Enum.Scan dir ty e (.bytes name) = (⟨none⟩, some err) := by
  simp [Enum.UnmarshalJSON, Enum.UnmarshalText, Enum.Scan, herr]

set_option maxRecDepth 10000 in
/-- Witness for the amended C3: with only `"A"` registered for `"T"`,
deserializing `"B"` into the bound handle unbinds it. -/
theorem c3_unknown_name_resets_handle_witness :
    (getInternalEnumForName (New (fun _ => ⟨true, 32⟩) [] "T" "A").2 "T" "B" =
      .error .unknownName) ∧
    (Enum.UnmarshalJSON (New (fun _ => ⟨true, 32⟩) [] "T" "A").2 "T"
        ⟨some ⟨"A", 0⟩⟩ (some "B")).1.Valid = false :=
  ⟨by decide,
    by
      have := (@c3_unknown_name_resets_handle
        (New (fun _ => ⟨true, 32⟩) [] "T" "A").2 "T" "B" ⟨some ⟨"A", 0⟩⟩
        GoErr.unknownName (by decide)).1
      rw [this]
      rfl⟩

set_option maxRecDepth 100000 in
/-- Counterexample to C4.  Fill the `int8` host type's identifier space
with `"n0" .. "n127"`; the set is now exhausted and `"n0"` is a name
that already exists.  Registering `"n0"` again fails — but with the
overflow panic `tooMany`, not `duplicateName`, because `Add` checks
`exhaustedID` before the duplicate check. -/
theorem c4_counterexample :
    ((newInternalSet.runAdds ⟨true, 8⟩ names128).Get "n0").isSome = true ∧
    ((newInternalSet.runAdds ⟨true, 8⟩ names128).Add ⟨true, 8⟩ "n0").1 ≠
      .error .duplicateName ∧
    ((newInternalSet.runAdds ⟨true, 8⟩ names128).Add ⟨true, 8⟩ "n0").1 =
      .error .tooMany := by
  obtain ⟨hres, hinvF⟩ := InternalSet.addResults_all_ok ⟨true, 8⟩ (by decide)
    (by decide) names128 (setInv_empty ⟨true, 8⟩ (by decide)) (by decide)
    (fun nm _ => rfl) (by decide)
  have hexh : (newInternalSet.runAdds ⟨true, 8⟩ names128).exhaustedID = true := by
    obtain ⟨-, -, hflag, -, -⟩ := hinvF
    rw [hflag]
    decide
  have hadd := InternalSet.add_exhausted ⟨true, 8⟩ hexh "n0"
  refine ⟨?_, ?_, ?_⟩
  · have hmap := InternalSet.runAdds_map_eq ⟨true, 8⟩ names128 newInternalSet
    rw [hres] at hmap
    unfold InternalSet.Get
    rw [hmap]
    decide
  · rw [hadd]
    simp
  · rw [hadd]

/-- C4 (amended).  In a non-exhausted registry, registering an existing
name for the same host type fails with `duplicateName` and leaves the
directory unchanged (when the set is exhausted, the `tooMany` overflow
panic takes precedence, as the counterexample shows).  Registering a
name for one host type is independent of every other type: it draws
the next identifier of that type's own sequence — whether the type's
set already exists or is created on the spot — and leaves all other
types' directory entries untouched, whatever names they contain. -/
theorem c4_duplicate_name_and_per_type_namespaces
    (ity : String → IntType) (dir : Directory) (ty name : String)
    (hname : name ≠ "") :
    (∀ s, dirLookup dir ty = some s → s.exhaustedID = false →
      (s.Get name).isSome = true →
      New ity dir ty name = (.error (.setPanic .duplicateName), dir)) ∧
    (∀ s n, dirLookup dir ty = some s → SetInv (ity ty) s n →
      1 ≤ (ity ty).bits → (ity ty).bits ≤ 64 → n < (ity ty).KVal →
      s.Get name = none →
      (New ity dir ty name).1 = .ok ⟨some ⟨name, (n : Int)⟩⟩ ∧
      ∀ ty', ty' ≠ ty → dirLookup (New ity dir ty name).2 ty' = dirLookup dir ty') ∧
    (dirLookup dir ty = none →
      (New ity dir ty name).1 = .ok ⟨some ⟨name, (0 : Int)⟩⟩ ∧
      ∀ ty', ty' ≠ ty → dirLookup (New ity dir ty name).2 ty' = dirLookup dir ty') := by
  refine ⟨?_, ?_, ?_⟩
  · intro s hlook hex hdup
    have hg : getOrCreateSetForType dir ty = (s, dir) := by
      unfold getOrCreateSetForType
      rw [hlook]
    unfold New
    rw [if_neg hname]
    simp only [hg]
    rw [InternalSet.add_dup (ity ty) hex hdup]
    simp [Except.map, Except.mapError, dirInsert_self hlook]
  · intro s n hlook hinv hb1 hb64 hroom hfresh
    have hg : getOrCreateSetForType dir ty = (s, dir) := by
      unfold getOrCreateSetForType
      rw [hlook]
    obtain ⟨hstep, -⟩ := InternalSet.add_ok (ity ty) hb1 hb64 hinv hroom hfresh
    unfold New
    rw [if_neg hname]
    simp only [hg]
    rw [hstep]
    refine ⟨by simp [Except.map, Except.mapError], fun ty' hne => ?_⟩
    simp only
    rw [dirLookup_dirInsert_ne dir hne]
  · intro hlook
    have hg : getOrCreateSetForType dir ty = (newInternalSet, dirInsert dir ty newInternalSet) := by
      unfold getOrCreateSetForType
      rw [hlook]
    have hadd := @InternalSet.add_unfold (ity ty) newInternalSet name rfl rfl
    have h0 : wrap64 (wrap64 (newInternalSet.nextID + 1) - 1) = 0 := by decide
    rw [h0, IntType.conv_zero] at hadd
    unfold New
    rw [if_neg hname]
    simp only [hg]
    rw [hadd]
    refine ⟨by simp [Except.map, Except.mapError], fun ty' hne => ?_⟩
    simp only
    rw [dirLookup_dirInsert_ne _ hne, dirLookup_dirInsert_ne _ hne]

/-- A concrete host-type map: every type `int8`-backed. -/
def ity8 : String → IntType := fun _ => ⟨true, 8⟩

/-- The directory after registering `"A"` for host type `"T"`. -/
def dirTA : Directory := (New ity8 [] "T" "A").2

/-- Witness for the amended C4: with `"A"` registered for `"T"`,
re-registering `"A"` for `"T"` fails with `duplicateName` leaving the
directory unchanged, while registering `"A"` for the distinct type
`"U"` succeeds with `"U"`'s own identifier 0 and leaves `"T"`'s entry
untouched. -/
theorem c4_duplicate_name_and_per_type_namespaces_witness :
    (("A" : String) ≠ "" ∧ dirLookup dirTA "T" = some ⟨[⟨"A", 0⟩], 1, false⟩ ∧
      (InternalSet.mk [⟨"A", 0⟩] 1 false).exhaustedID = false ∧
      ((InternalSet.mk [⟨"A", 0⟩] 1 false).Get "A").isSome = true ∧
      dirLookup dirTA "U" = none) ∧
    New ity8 dirTA "T" "A" = (.error (.setPanic .duplicateName), dirTA) ∧
    (New ity8 dirTA "U" "A").1 = .ok ⟨some ⟨"A", (0 : Int)⟩⟩ ∧
    dirLookup (New ity8 dirTA "U" "A").2 "T" = dirLookup dirTA "T" := by
  refine ⟨⟨by decide, by decide, by decide, by decide, by decide⟩, ?_, ?_, ?_⟩
  · exact (c4_duplicate_name_and_per_type_namespaces ity8 dirTA "T" "A"
      (by decide)).1 ⟨[⟨"A", 0⟩], 1, false⟩ (by decide) (by decide) (by decide)
  · exact ((c4_duplicate_name_and_per_type_namespaces ity8 dirTA "U" "A"
      (by decide)).2.2 (by decide)).1
  · exact ((c4_duplicate_name_and_per_type_namespaces ity8 dirTA "U" "A"
      (by decide)).2.2 (by decide)).2 "T" (by decide)

/-- C5.  A handle obtained from a successful registration serializes —
as text and JSON — to its name, and deserializing that output against
the post-registration directory for the same host type yields a handle
equal to it (same name, same identifier), with no error. -/
theorem c5_serialize_deserialize_roundtrip (ity : String → IntType)
    (dir : Directory) (ty name : String) (h : Enum) (dir' : Directory)
    (hnew : New ity dir ty name = (.ok h, dir')) :
    h.MarshalJSON = .ok name ∧ h.MarshalText = .ok name ∧
    Enum.UnmarshalJSON dir' ty ⟨none⟩ (some name) = (h, none) ∧
    Enum.UnmarshalText dir' ty ⟨none⟩ name = (h, none) := by
  obtain ⟨e, s1, hh, hename, hadd, hdir, hmap, hget⟩ := New_ok_inv hnew
  subst hh
  have hget1 : s1.Get name = some e := by
    unfold InternalSet.Get
    rw [hmap]
    refine find_name_append _ _ _ ?_ hename
    unfold InternalSet.Get at hget
    exact hget
  have hlook : dirLookup dir' ty = some s1 := by
    rw [hdir]
    exact dirLookup_dirInsert_self _ _ _
  have hgie : getInternalEnumForName dir' ty name = .ok e := by
    simp [getInternalEnumForName, hlook, hget1]
  refine ⟨?_, ?_, ?_, ?_⟩
  · simp [Enum.MarshalJSON, hename]
  · simp [Enum.MarshalText, hename]
  · simp [Enum.UnmarshalJSON, hgie]
  · simp [Enum.UnmarshalText, hgie]

/-- Witness for C5 at the registration of `"A"` for `"T"`. -/
theorem c5_serialize_deserialize_roundtrip_witness :
    New ity8 [] "T" "A" = (.ok ⟨some ⟨"A", 0⟩⟩, dirTA) ∧
    (Enum.mk (some ⟨"A", 0⟩)).MarshalJSON = .ok "A" ∧
    (Enum.mk (some ⟨"A", 0⟩)).MarshalText = .ok "A" ∧
    Enum.UnmarshalJSON dirTA "T" ⟨none⟩ (some "A") = (⟨some ⟨"A", 0⟩⟩, none) ∧
    Enum.UnmarshalText dirTA "T" ⟨none⟩ "A" = (⟨some ⟨"A", 0⟩⟩, none) :=
  ⟨by decide,
    (c5_serialize_deserialize_roundtrip ity8 [] "T" "A" ⟨some ⟨"A", 0⟩⟩ dirTA
      (by decide)).1,
    (c5_serialize_deserialize_roundtrip ity8 [] "T" "A" ⟨some ⟨"A", 0⟩⟩ dirTA
      (by decide)).2.1,
    (c5_serialize_deserialize_roundtrip ity8 [] "T" "A" ⟨some ⟨"A", 0⟩⟩ dirTA
      (by decide)).2.2.1,
    (c5_serialize_deserialize_roundtrip ity8 [] "T" "A" ⟨some ⟨"A", 0⟩⟩ dirTA
      (by decide)).2.2.2⟩

/-- C6.  The zero-value handle is invalid and its `Name`/`ID` accessors
panic ("enum not initialized"); every handle returned by a successful
registration is valid. -/
theorem c6_invalid_handle_guard (ity : String → IntType) (dir : Directory)
    (ty nm : String) :
    (Enum.mk none).Valid = false ∧
    Enum.Name ⟨none⟩ = .error .enumNotInitialized ∧
    Enum.ID ⟨none⟩ = .error .enumNotInitialized ∧
    (∀ h dir', New ity dir ty nm = (.ok h, dir') → h.Valid = true) := by
  refine ⟨rfl, rfl, rfl, fun h dir' hnew => ?_⟩
  obtain ⟨e, s1, hh, -, -, -, -, -⟩ := New_ok_inv hnew
  subst hh
  rfl

/-- Witness for C6 at the registration of `"A"` for `"T"`. -/
theorem c6_invalid_handle_guard_witness :
    (Enum.mk none).Valid = false ∧
    (Enum.mk (some ⟨"A", 0⟩)).Valid = true :=
  ⟨(c6_invalid_handle_guard ity8 [] "T" "A").1,
    (c6_invalid_handle_guard ity8 [] "T" "A").2.2.2 ⟨some ⟨"A", 0⟩⟩ dirTA
      (by decide)⟩

/-- C7.  On a valid handle, every serialization adapter — text
marshalling, JSON marshalling, and the SQL value conversion — produces
exactly the handle's name string as the payload (never the numeric
identifier). -/
theorem c7_serializers_emit_name (e : Enum) (ie : InternalEnum)
    (h : e.internalEnum = some ie) :
    e.MarshalText = .ok ie.name ∧ e.MarshalJSON = .ok ie.name ∧
    e.Value = .ok ie.name := by
  cases e with
  | mk inner =>
    cases h
    exact ⟨rfl, rfl, rfl⟩

/-- Witness for C7 on the handle bound to `("A", 0)`. -/
theorem c7_serializers_emit_name_witness :
    (Enum.mk (some ⟨"A", 0⟩)).internalEnum = some ⟨"A", 0⟩ ∧
    ((Enum.mk (some ⟨"A", 0⟩)).MarshalText = .ok "A" ∧
      (Enum.mk (some ⟨"A", 0⟩)).MarshalJSON = .ok "A" ∧
      (Enum.mk (some ⟨"A", 0⟩)).Value = .ok "A") :=
  ⟨rfl, c7_serializers_emit_name ⟨some ⟨"A", 0⟩⟩ ⟨"A", 0⟩ rfl⟩

/-- A sequence of `New` calls (host type, name), keeping the directory. -/
def runNews (ity : String → IntType) (dir : Directory)
    (ops : List (String × String)) : Directory :=
  ops.foldl (fun d op => (New ity d op.1 op.2).2) dir

/-- All names stored anywhere in the directory. -/
def dirNames : Directory → List String
  | [] => []
  | p :: rest => p.2.nameEnumMap.map InternalEnum.name ++ dirNames rest

/-- Every name stored in every registry of the directory is non-empty. -/
def DirNamesOK (dir : Directory) : Prop :=
  ∀ p ∈ dir, ∀ e ∈ p.2.nameEnumMap, e.name ≠ ""

theorem InternalSet.add_mem_names (it : IntType) (s : InternalSet)
    (nm : String) : ∀ x ∈ (s.Add it nm).2.nameEnumMap,
      x ∈ s.nameEnumMap ∨ x.name = nm := by
  intro x hx
  unfold InternalSet.Add at hx
  split at hx
  · exact Or.inl hx
  · split at hx
    · exact Or.inl hx
    · simp only [List.mem_append, List.mem_singleton] at hx
      rcases hx with hx | hx
      · exact Or.inl hx
      · subst hx
        exact Or.inr rfl

theorem mem_dirInsert {dir : Directory} {ty : String} {s : InternalSet} :
    ∀ p ∈ dirInsert dir ty s, p.2 = s ∨ p ∈ dir := by
  induction dir with
  | nil =>
    intro p hp
    simp only [dirInsert, List.mem_singleton] at hp
    subst hp
    exact Or.inl rfl
  | cons q rest ih =>
    obtain ⟨t, s0⟩ := q
    intro p hp
    simp only [dirInsert] at hp
    split at hp
    · rcases List.mem_cons.1 hp with hp | hp
      · subst hp
        exact Or.inl rfl
      · exact Or.inr (List.mem_cons_of_mem _ hp)
    · rcases List.mem_cons.1 hp with hp | hp
      · subst hp
        exact Or.inr (List.mem_cons_self _ _)
      · rcases ih p hp with h | h
        · exact Or.inl h
        · exact Or.inr (List.mem_cons_of_mem _ h)

theorem dirLookup_mem {dir : Directory} {ty : String} {s : InternalSet}
    (h : dirLookup dir ty = some s) : ∃ p, p ∈ dir ∧ p.2 = s := by
  unfold dirLookup at h
  cases hf : dir.find? (fun p => p.1 == ty) with
  | none =>
    rw [hf] at h
    simp at h
  | some p =>
    rw [hf] at h
    simp only [Option.map] at h
    injection h with h
    exact ⟨p, List.mem_of_find?_eq_some hf, h⟩

theorem getOrCreate_snd_mem {dir : Directory} {ty : String} :
    ∀ p ∈ (getOrCreateSetForType dir ty).2, p ∈ dir ∨ p.2 = newInternalSet := by
  unfold getOrCreateSetForType
  cases hlook : dirLookup dir ty with
  | some s => exact fun p hp => Or.inl hp
  | none =>
    intro p hp
    rcases mem_dirInsert p hp with h | h
    · exact Or.inr h
    · exact Or.inl h

/-- Any single `New` call preserves non-emptiness of all stored names. -/
theorem New_preserves_dirNamesOK (ity : String → IntType) {dir : Directory}
    (h : DirNamesOK dir) (ty nm : String) :
    DirNamesOK (New ity dir ty nm).2 := by
  by_cases hnm : nm = ""
  · subst hnm
    unfold New
    rw [if_pos rfl]
    exact h
  · unfold New
    rw [if_neg hnm]
    simp only []
    intro p hp e he
    rcases mem_dirInsert p hp with hps | hpd
    · rw [hps] at he
      rcases InternalSet.add_mem_names _ _ _ e he with hin | hname
      · cases hlook : dirLookup dir ty with
        | some s =>
          simp only [getOrCreateSetForType, hlook] at hin
          obtain ⟨q, hq, hqs⟩ := dirLookup_mem hlook
          refine h q hq e ?_
          rw [hqs]
          exact hin
        | none =>
          simp only [getOrCreateSetForType, hlook] at hin
          simp [newInternalSet] at hin
      · rw [hname]
        exact hnm
    · rcases getOrCreate_snd_mem p hpd with hind | hnew2
      · exact h p hind e he
      · rw [hnew2] at he
        simp [newInternalSet] at he

theorem runNews_dirNamesOK (ity : String → IntType)
    (ops : List (String × String)) :
    ∀ {dir : Directory}, DirNamesOK dir → DirNamesOK (runNews ity dir ops) := by
  induction ops with
  | nil => exact fun h => h
  | cons op rest ih =>
    intro dir h
    exact ih (New_preserves_dirNamesOK ity h op.1 op.2)

theorem mem_dirNames {dir : Directory} {nm : String} (h : nm ∈ dirNames dir) :
    ∃ p, p ∈ dir ∧ ∃ e ∈ p.2.nameEnumMap, e.name = nm := by
  induction dir with
  | nil => simp [dirNames] at h
  | cons q rest ih =>
    simp only [dirNames, List.mem_append] at h
    rcases h with h | h
    · obtain ⟨e, he, hname⟩ := List.mem_map.1 h
      exact ⟨q, List.mem_cons_self _ _, e, he, hname⟩
    · obtain ⟨p, hp, hrest⟩ := ih h
      exact ⟨p, List.mem_cons_of_mem _ hp, hrest⟩

/-- C8.  Registration with the empty name panics with the
invalid-argument condition before touching the directory, and no
reachable directory ever stores an empty name. -/
theorem c8_empty_name_rejected (ity : String → IntType) (dir : Directory)
    (ty : String) (ops : List (String × String)) :
    New ity dir ty "" = (.error .emptyName, dir) ∧
    ∀ nm ∈ dirNames (runNews ity [] ops), nm ≠ "" := by
  constructor
  · unfold New
    rw [if_pos rfl]
  · intro nm hmem
    have hok : DirNamesOK (runNews ity [] ops) :=
      runNews_dirNamesOK ity ops (fun p hp => by simp at hp)
    obtain ⟨p, hp, e, he, hname⟩ := mem_dirNames hmem
    rw [← hname]
    exact hok p hp e he

/-- Witness for C8: the empty name is rejected on the empty directory,
and the name stored by the one successful registration is non-empty. -/
theorem c8_empty_name_rejected_witness :
    New ity8 [] "T" "" = (.error .emptyName, []) ∧
    ("a" ∈ dirNames (runNews ity8 [] [("T", "a")])) ∧ ("a" : String) ≠ "" :=
  ⟨(c8_empty_name_rejected ity8 [] "T" [("T", "a")]).1, by decide,
    (c8_empty_name_rejected ity8 [] "T" [("T", "a")]).2 "a" (by decide)⟩

/-- C10.  A registration that fails on a duplicate name leaves the
registry completely unchanged — the duplicate check precedes the
identifier allocation, so no identifier is consumed — and the next
successful registration still receives the next contiguous
identifier `n`. -/
theorem c10_duplicate_consumes_no_identifier (it : IntType)
    (hb1 : 1 ≤ it.bits) (hb64 : it.bits ≤ 64) {s : InternalSet} {n : Nat}
    (hinv : SetInv it s n) (hroom : n < it.KVal) {name name' : String}
    (hdup : (s.Get name).isSome = true) (hfresh : s.Get name' = none) :
    s.Add it name = (.error .duplicateName, s) ∧
    (((s.Add it name).2).Add it name').1 = .ok ⟨name', (n : Int)⟩ := by
  have hexf : s.exhaustedID = false := by
    obtain ⟨-, -, hex, -, -⟩ := hinv
    rw [hex]
    simp [Nat.ne_of_lt hroom]
  have hfirst := InternalSet.add_dup it hexf hdup
  refine ⟨hfirst, ?_⟩
  rw [hfirst]
  simp only
  rw [(InternalSet.add_ok it hb1 hb64 hinv hroom hfresh).1]

/-- Witness for C10: with `"a"`, `"b"` registered for `int8`, a failed
duplicate `Add "a"` changes nothing and a following `Add "c"` still
gets identifier 2. -/
theorem c10_duplicate_consumes_no_identifier_witness :
    (1 ≤ (IntType.mk true 8).bits ∧ (IntType.mk true 8).bits ≤ 64 ∧
      SetInv ⟨true, 8⟩ ⟨[⟨"a", 0⟩, ⟨"b", 1⟩], 2, false⟩ 2 ∧
      2 < (IntType.mk true 8).KVal ∧
      ((InternalSet.mk [⟨"a", 0⟩, ⟨"b", 1⟩] 2 false).Get "a").isSome = true ∧
      (InternalSet.mk [⟨"a", 0⟩, ⟨"b", 1⟩] 2 false).Get "c" = none) ∧
    ((InternalSet.mk [⟨"a", 0⟩, ⟨"b", 1⟩] 2 false).Add ⟨true, 8⟩ "a" =
      (.error .duplicateName, ⟨[⟨"a", 0⟩, ⟨"b", 1⟩], 2, false⟩) ∧
    ((((InternalSet.mk [⟨"a", 0⟩, ⟨"b", 1⟩] 2 false).Add ⟨true, 8⟩ "a").2).Add
      ⟨true, 8⟩ "c").1 = .ok ⟨"c", (2 : Int)⟩) :=
  ⟨⟨by decide, by decide,
      ⟨by decide, by decide, by decide, by decide, by decide⟩,
      by decide, by decide, by decide⟩,
    c10_duplicate_consumes_no_identifier ⟨true, 8⟩ (by decide) (by decide)
      ⟨by decide, by decide, by decide, by decide, by decide⟩
      (by decide) (by decide) (by decide)⟩

theorem New_empty (ity : String → IntType) (dir : Directory) (ty : String) :
    New ity dir ty "" = (.error .emptyName, dir) := by
  unfold New
  rw [if_pos rfl]

theorem New_nonempty_eq (ity : String → IntType) (dir : Directory)
    (ty nm : String) (hnm : nm ≠ "") :
    New ity dir ty nm =
      (((((getOrCreateSetForType dir ty).1.Add (ity ty) nm).1.map
          (fun e => Enum.mk (some e))).mapError NewPanic.setPanic),
        dirInsert (getOrCreateSetForType dir ty).2 ty
          (((getOrCreateSetForType dir ty).1.Add (ity ty) nm).2)) := by
  unfold New
  rw [if_neg hnm]

theorem InternalSet.add_empty_ok (it : IntType) (nm : String) :
    ∃ e s1, newInternalSet.Add it nm = (.ok e, s1) ∧
      s1.nameEnumMap.length = 1 := by
  have hadd := @InternalSet.add_unfold it newInternalSet nm rfl rfl
  exact ⟨_, _, hadd, by simp [newInternalSet]⟩

/-- Number of successful `New` calls for host type `ty` in a call
sequence starting from `dir`. -/
def countOkFor (ity : String → IntType) (ty : String) :
    Directory → List (String × String) → Nat
  | _, [] => 0
  | dir, op :: rest =>
    (if op.1 = ty ∧ ((New ity dir op.1 op.2).1.toOption).isSome then 1 else 0) +
      countOkFor ity ty (New ity dir op.1 op.2).2 rest

/-- Relation between a directory and the number of successful
registrations for `ty` so far: either none happened and `ty` has no
set, or `k ≥ 1` of them happened and `ty`'s set holds exactly `k`
entries. -/
def DirCount (dir : Directory) (ty : String) (k : Nat) : Prop :=
  (k = 0 ∧ dirLookup dir ty = none) ∨
  (1 ≤ k ∧ ∃ s, dirLookup dir ty = some s ∧ s.nameEnumMap.length = k)

theorem DirCount_congr {d1 d2 : Directory} {ty : String} {k : Nat}
    (h : DirCount d1 ty k) (he : dirLookup d2 ty = dirLookup d1 ty) :
    DirCount d2 ty k := by
  rcases h with ⟨hk, hl⟩ | ⟨h1, s, hl, hlen⟩
  · exact Or.inl ⟨hk, by rw [he, hl]⟩
  · exact Or.inr ⟨h1, s, by rw [he, hl], hlen⟩

/-- One `New` call updates the success count for `ty` by exactly the
one-or-zero contribution of that call. -/
theorem New_dirCount (ity : String → IntType) (ty : String) {dir : Directory}
    {k : Nat} (h : DirCount dir ty k) (ty' nm : String) :
    DirCount (New ity dir ty' nm).2 ty
      (k + (if ty' = ty ∧ ((New ity dir ty' nm).1.toOption).isSome
        then 1 else 0)) := by
  by_cases hnm : nm = ""
  · subst hnm
    rw [New_empty]
    simpa [Except.toOption] using h
  · rw [New_nonempty_eq ity dir ty' nm hnm]
    by_cases hty : ty' = ty
    · subst hty
      cases hlook : dirLookup dir ty' with
      | none =>
        have hk : k = 0 := by
          rcases h with ⟨hk, -⟩ | ⟨-, s, hs, -⟩
          · exact hk
          · rw [hlook] at hs
            exact absurd hs (by simp)
        have hg : getOrCreateSetForType dir ty' =
            (newInternalSet, dirInsert dir ty' newInternalSet) := by
          unfold getOrCreateSetForType
          rw [hlook]
        rw [hg]
        simp only
        obtain ⟨e, s1, hadd, hlen⟩ := InternalSet.add_empty_ok (ity ty') nm
        rw [hadd]
        simp [Except.map, Except.mapError, Except.toOption]
        refine Or.inr ⟨by omega, s1, ?_, by omega⟩
        exact dirLookup_dirInsert_self _ _ _
      | some s =>
        have hg : getOrCreateSetForType dir ty' = (s, dir) := by
          unfold getOrCreateSetForType
          rw [hlook]
        rw [hg]
        simp only
        obtain ⟨h1k, hlen⟩ : 1 ≤ k ∧ s.nameEnumMap.length = k := by
          rcases h with ⟨-, hnone⟩ | ⟨h1k, s2, hs2, hlen2⟩
          · rw [hlook] at hnone
            exact absurd hnone (by simp)
          · rw [hlook] at hs2
            injection hs2 with hs2
            subst hs2
            exact ⟨h1k, hlen2⟩
        rcases hr : s.Add (ity ty') nm with ⟨r1, s1⟩
        cases r1 with
        | ok e =>
          simp only [Except.map, Except.mapError, Except.toOption,
            Option.isSome_some]
          rw [if_pos (by simp)]
          obtain ⟨-, -, -, hmap⟩ := InternalSet.add_ok_inv hr
          refine Or.inr ⟨by omega, s1, dirLookup_dirInsert_self _ _ _, ?_⟩
          rw [hmap]
          simp [hlen]
        | error p =>
          have h2 : (s.Add (ity ty') nm).2 = s :=
            @InternalSet.add_err_state (ity ty') s nm p (by rw [hr])
          rw [hr] at h2
          simp only [Except.map, Except.mapError, Except.toOption]
          rw [if_neg (by simp), Nat.add_zero, show s1 = s from h2]
          exact Or.inr ⟨h1k, s, dirLookup_dirInsert_self _ _ _, hlen⟩
    · have hne : ty ≠ ty' := fun hh => hty hh.symm
      have hlu : dirLookup (dirInsert (getOrCreateSetForType dir ty').2 ty'
          (((getOrCreateSetForType dir ty').1.Add (ity ty') nm).2)) ty =
          dirLookup dir ty := by
        rw [dirLookup_dirInsert_ne _ hne]
        unfold getOrCreateSetForType
        cases hlook : dirLookup dir ty' with
        | some s => rfl
        | none => exact dirLookup_dirInsert_ne _ hne _
      rw [if_neg (fun hc => hty hc.1), Nat.add_zero]
      exact DirCount_congr h hlu

theorem runNews_dirCount (ity : String → IntType) (ty : String) :
    ∀ (ops : List (String × String)) {dir : Directory} {k : Nat},
      DirCount dir ty k →
      DirCount (runNews ity dir ops) ty (k + countOkFor ity ty dir ops) := by
  intro ops
  induction ops with
  | nil =>
    intro dir k h
    simpa [runNews, countOkFor] using h
  | cons op rest ih =>
    intro dir k h
    obtain ⟨ty', nm⟩ := op
    have hstep := New_dirCount ity ty h ty' nm
    have hrec := ih hstep
    simpa [runNews, countOkFor, Nat.add_assoc] using hrec

/-- C9.  `EnumsByType` panics (nil type assertion) for a host type with
no set — i.e. one with zero successful registrations — instead of
returning an empty collection or an error; for a type with `N`
successful registrations, it returns exactly `N` handles. -/
theorem c9_enums_by_type_count (ity : String → IntType)
    (ops : List (String × String)) (ty : String) :
    (∀ dir : Directory, dirLookup dir ty = none → EnumsByType dir ty = none) ∧
    (countOkFor ity ty [] ops = 0 → EnumsByType (runNews ity [] ops) ty = none) ∧
    (∀ l, EnumsByType (runNews ity [] ops) ty = some l →
      l.length = countOkFor ity ty [] ops) := by
  have hdc : DirCount (runNews ity [] ops) ty (0 + countOkFor ity ty [] ops) :=
    runNews_dirCount ity ty ops (Or.inl ⟨rfl, rfl⟩)
  rw [Nat.zero_add] at hdc
  refine ⟨?_, ?_, ?_⟩
  · intro dir h
    simp [EnumsByType, h]
  · intro hzero
    rcases hdc with ⟨-, hnone⟩ | ⟨h1k, s, hs, hlen⟩
    · simp [EnumsByType, hnone]
    · rw [hzero] at h1k
      omega
  · intro l hl
    rcases hdc with ⟨hk, hnone⟩ | ⟨-, s, hs, hlen⟩
    · simp only [EnumsByType, hnone] at hl
      exact absurd hl (by simp)
    · simp only [EnumsByType, hs] at hl
      injection hl with hl
      rw [← hl]
      simp [hlen]

/-- Witness for C9: with only `"a"` registered for `"T"`, the lookup
for the unregistered `"U"` panics (`none`), and `"T"`'s single
successful registration yields exactly one handle. -/
theorem c9_enums_by_type_count_witness :
    EnumsByType ([] : Directory) "T" = none ∧
    EnumsByType (runNews ity8 [] [("T", "a")]) "U" = none ∧
    ([Enum.mk (some ⟨"a", 0⟩)] : List Enum).length =
      countOkFor ity8 "T" [] [("T", "a")] :=
  ⟨(c9_enums_by_type_count ity8 [("T", "a")] "T").1 [] (by decide),
    (c9_enums_by_type_count ity8 [("T", "a")] "U").2.1 (by decide),
    (c9_enums_by_type_count ity8 [("T", "a")] "T").2.2 [⟨some ⟨"a", 0⟩⟩]
      (by decide)⟩
